import Mathlib

/-
Verification development for the k-fold CNN cross-validation pipeline in
cnn/cnn_bio.py.  The Python source is shallowly embedded: pure text
processing becomes functions over lists of characters, numpy matrices
become lists of lists of rationals, fallible operations return
Except String, and the per-fold TensorFlow session behaviour is modelled
as an explicit event trace with a weight-state interpreter.
-/

set_option linter.unusedVariables false

namespace CnnBio

deriving instance DecidableEq for Except

/-- Characters treated as whitespace by Python str.split and str.strip. -/
def isPySpace (c : Char) : Bool :=
  c == ' ' || c == '\t' || c == '\n' || c == '\r' || c == '\x0b' || c == '\x0c'

/-- Model of a line of text, a file name, or a path: a list of characters. -/
abbrev Str := List Char

/-- Python str.strip with no argument: drop whitespace from both ends. -/
def pyStrip (s : Str) : Str :=
  ((s.dropWhile isPySpace).reverse.dropWhile isPySpace).reverse

/-- Helper for splitWs: accumulates the current token in reverse. -/
def splitWsAux : Str → Str → List Str
  | [], acc => if acc.isEmpty then [] else [acc.reverse]
  | c :: rest, acc =>
    if isPySpace c then
      (if acc.isEmpty then [] else [acc.reverse]) ++ splitWsAux rest []
    else splitWsAux rest (c :: acc)

/-- Python str.split with no argument: split on runs of whitespace,
producing no empty tokens. -/
def splitWs (s : Str) : List Str := splitWsAux s []

/-- Numeric value of a run of decimal digits; none if a non-digit occurs. -/
def decDigits (ds : Str) : Option Nat :=
  ds.foldl
    (fun acc c =>
      match acc with
      | none => none
      | some n => if c.isDigit then some (n * 10 + (c.toNat - 48)) else none)
    (some 0)

/-- Model of Python int(str): optional surrounding whitespace, an optional
sign, then a nonempty run of decimal digits.  (Underscored literals and
non-decimal bases do not occur in this dataset format and are omitted.) -/
def pyInt (s : Str) : Option Int :=
  match pyStrip s with
  | '-' :: ds => if ds.isEmpty then none else (decDigits ds).map (fun n => -(n : Int))
  | '+' :: ds => if ds.isEmpty then none else (decDigits ds).map (fun n => (n : Int))
  | ds => if ds.isEmpty then none else (decDigits ds).map (fun n => (n : Int))

/-- Split a mantissa/exponent string at the first e or E. -/
def splitExp : Str → Str × Option Str
  | [] => ([], none)
  | c :: r =>
    if c == 'e' || c == 'E' then ([], some r)
    else
      let p := splitExp r
      (c :: p.1, p.2)

/-- Split a mantissa at the first decimal point. -/
def splitDot : Str → Str × Option Str
  | [] => ([], none)
  | c :: r =>
    if c == '.' then ([], some r)
    else
      let p := splitDot r
      (c :: p.1, p.2)

/-- Mantissa of a Python float literal: digits, digits.digits, digits., or
.digits, with at least one digit present. -/
def parseMant (m : Str) : Option ℚ :=
  match splitDot m with
  | (ip, none) =>
    if ip.isEmpty then none
    else (decDigits ip).map (fun n => (n : ℚ))
  | (ip, some fp) =>
    if ip.isEmpty && fp.isEmpty then none
    else
      match decDigits ip, decDigits fp with
      | some a, some b => some ((a : ℚ) + (b : ℚ) / (10 : ℚ) ^ fp.length)
      | _, _ => none

/-- Exponent of a Python float literal: optional sign, nonempty digits. -/
def parseExp (e : Str) : Option Int :=
  match e with
  | '-' :: ds => if ds.isEmpty then none else (decDigits ds).map (fun n => -(n : Int))
  | '+' :: ds => if ds.isEmpty then none else (decDigits ds).map (fun n => (n : Int))
  | ds => if ds.isEmpty then none else (decDigits ds).map (fun n => (n : Int))

/-- Model of float conversion as performed by numpy on each token of a
feature row (np.array(result, dtype=float)).  Real floats are modelled as
exact rationals; inf/nan spellings do not occur in this data format. -/
def pyFloat (s : Str) : Option ℚ :=
  let t := pyStrip s
  let signed : ℚ × Str :=
    match t with
    | '-' :: r => (-1, r)
    | '+' :: r => (1, r)
    | r => (1, r)
  match splitExp signed.2 with
  | (m, none) => (parseMant m).map (fun q => signed.1 * q)
  | (m, some e) =>
    match parseMant m, parseExp e with
    | some q, some x => some (signed.1 * q * (10 : ℚ) ^ x)
    | _, _ => none

/-- One entry of the dataset directory as seen by os.listdir: a name, a
regular-file flag (os.path.isfile), and the file text split into lines. -/
structure DirEntry where
  name : Str
  isFile : Bool
  lines : List Str
deriving DecidableEq, Repr

/-- f.readline() on the opened sample file: its first line (empty if the
file has no lines). -/
def headLine (e : DirEntry) : Str := e.lines.headD []

/-- os.path.join for a directory and a file name. -/
def pathJoin (d n : Str) : Str := d ++ '/' :: n

/-- Embedding of get_datasets (cnn_bio.py lines 33-55): walk the directory
entries in listdir order; for each regular file read the header line,
whitespace-split it, and record the file path together with
int(tokens[1]) - 1.  A missing second token raises IndexError and a
non-integer token raises ValueError; either aborts the walk. -/
def get_datasets (dPath : Str) (entries : List DirEntry) :
    Except String (List Str × List Int) :=
  match entries with
  | [] => .ok ([], [])
  | e :: rest =>
    if e.isFile then
      match (splitWs (headLine e))[1]? with
      | none => .error "IndexError: list index out of range"
      | some tok =>
        match pyInt tok with
        | none => .error "ValueError: invalid literal for int"
        | some v =>
          match get_datasets dPath rest with
          | .error msg => .error msg
          | .ok (ps, ls) => .ok (pathJoin dPath e.name :: ps, (v - 1) :: ls)
    else get_datasets dPath rest

/-- The labelling rule exactly as the specification words it (label taken
from the FIRST whitespace-delimited token of the header line); kept
separate from the source embedding so the two can be compared. -/
def get_datasets_firstTok (dPath : Str) (entries : List DirEntry) :
    Except String (List Str × List Int) :=
  match entries with
  | [] => .ok ([], [])
  | e :: rest =>
    if e.isFile then
      match (splitWs (headLine e))[0]? with
      | none => .error "IndexError: list index out of range"
      | some tok =>
        match pyInt tok with
        | none => .error "ValueError: invalid literal for int"
        | some v =>
          match get_datasets_firstTok dPath rest with
          | .error msg => .error msg
          | .ok (ps, ls) => .ok (pathJoin dPath e.name :: ps, (v - 1) :: ls)
    else get_datasets_firstTok dPath rest

/-- The label extraction attempted by get_datasets on a single file: the
second whitespace token of the header line converted by int; none when
the token is missing (IndexError) or non-numeric (ValueError). -/
def labelParse (e : DirEntry) : Option Int :=
  ((splitWs (headLine e))[1]?).bind pyInt

/-- The kept lines of read_data (cnn_bio.py lines 67-75): every line is
stripped; a line is kept when it is nonempty and does not start with the
marker character after stripping. -/
def keptLines (lines : List Str) : List Str :=
  (lines.map pyStrip).filter (fun l => !l.isEmpty && !(l.headD ' ' == '>'))

/-- The token rows appended by read_data: each kept line is
whitespace-split into one row. -/
def rawRows (lines : List Str) : List (List Str) :=
  (keptLines lines).map splitWs

/-- Error-propagating map, mirroring an operation that raises on the first
bad element. -/
def exceptMap (f : α → Except String β) : List α → Except String (List β)
  | [] => .ok []
  | a :: l =>
    match f a with
    | .error msg => .error msg
    | .ok b =>
      match exceptMap f l with
      | .error msg => .error msg
      | .ok bs => .ok (b :: bs)

/-- Convert one token row to rationals; np.array(..., dtype=float) raises
ValueError on the first token that is not a float literal. -/
def parseRow (r : List Str) : Except String (List ℚ) :=
  exceptMap
    (fun t =>
      match pyFloat t with
      | some q => .ok q
      | none => .error "ValueError: could not convert string to float")
    r

/-- Embedding of np.array(result, dtype=np.float) on the kept rows: parse
every token and require a rectangular shape (a ragged list of rows cannot
be converted to a 2-D float array). -/
def parseMatrix (lines : List Str) : Except String (List (List ℚ)) :=
  match exceptMap parseRow (rawRows lines) with
  | .error msg => .error msg
  | .ok rows =>
    if rows.all (fun r => r.length == (rows.headD []).length) then .ok rows
    else .error "ValueError: setting an array element with a sequence"

/-- Embedding of the truncate/pad/reshape step of read_data (cnn_bio.py
lines 77-92).  A matrix with more than data_height rows keeps its first
data_height rows; otherwise rows of zeros are appended.  np.array of an
empty row list is one-dimensional, so np.lib.pad with two pad pairs
raises ValueError there; reshape to (height, width, 1) raises when the
element count does not match. -/
def encodeMat (mat : List (List ℚ)) (dataHeight dataWidth : Nat) :
    Except String (List (List (List ℚ))) :=
  if mat.isEmpty then
    .error "ValueError: pad width does not match array dimensions"
  else
    let w := (mat.headD []).length
    let newMat :=
      if dataHeight < mat.length then mat.take dataHeight
      else mat ++ List.replicate (dataHeight - mat.length) (List.replicate w 0)
    if dataHeight * w == dataHeight * dataWidth then
      .ok (newMat.map (fun row => row.map (fun x => [x])))
    else .error "ValueError: cannot reshape array"

/-- Embedding of read_data: parse the sample file, then encode the matrix
to the fixed (height, width, 1) shape. -/
def read_data (lines : List Str) (dataHeight dataWidth : Nat) :
    Except String (List (List (List ℚ))) :=
  match parseMatrix lines with
  | .error msg => .error msg
  | .ok mat => encodeMat mat dataHeight dataWidth

/-! Fold partitioner.  cnn_bio.py line 222 constructs
KFold(n_splits=folds, shuffle=True, random_state=seed) and line 224 calls
rs.split(training_labels).  sklearn shuffles the index range with a
generator seeded from random_state, cuts the shuffled order into k
contiguous test blocks whose sizes differ by at most one, and yields each
(train, test) pair with both sides listed in increasing index order
(split materializes them through a boolean mask over arange(n)).  The
exact MT19937 stream is abstracted into a deterministic linear
congruential generator; only determinism under the seed and the
permutation property of the shuffle are relied upon. -/

/-- One step of the deterministic pseudo-random generator standing in for
numpy RandomState. -/
def lcgStep (s : Nat) : Nat :=
  (6364136223846793005 * s + 1442695040888963407) % 18446744073709551616

/-- Fisher-Yates selection shuffle driven by the seeded generator: pick a
pseudo-random position, emit it, recurse on the rest.  The first argument
is the generator state, the second a structural-recursion fuel that is
always at least the list length. -/
def drawShuffle (s : Nat) : Nat → List Nat → List Nat
  | 0, _ => []
  | _, [] => []
  | fuel + 1, a :: l =>
    let j := s % (a :: l).length
    (a :: l).getD j 0 :: drawShuffle (lcgStep s) fuel ((a :: l).eraseIdx j)

/-- The shuffled index order over the sample range, determined by the seed
alone (model of RandomState(seed).shuffle(arange(n))). -/
def shuffleIdx (seed n : Nat) : List Nat :=
  drawShuffle (lcgStep seed) n (List.range n)

/-- Size of test fold i: the first n mod k folds get one extra sample. -/
def foldSize (n k i : Nat) : Nat :=
  n / k + (if i < n % k then 1 else 0)

/-- Offset of test fold i in the shuffled order. -/
def foldStart (n k i : Nat) : Nat :=
  i * (n / k) + min i (n % k)

/-- The i-th contiguous test block of the shuffled index order. -/
def testBlock (n k seed i : Nat) : List Nat :=
  ((shuffleIdx seed n).drop (foldStart n k i)).take (foldSize n k i)

/-- The k (train, test) pairs yielded by KFold.split: both sides are
listed in increasing index order, test membership being membership in the
i-th shuffled block and train membership its complement. -/
def kfoldPairs (n k seed : Nat) : List (List Nat × List Nat) :=
  (List.range k).map
    (fun i =>
      ((List.range n).filter (fun j => !(testBlock n k seed i).contains j),
       (List.range n).filter (fun j => (testBlock n k seed i).contains j)))

/-- Embedding of KFold(n_splits=k, shuffle=True, random_state=seed)
followed by split over n samples.  sklearn raises ValueError when k < 2
at construction and when k exceeds the number of samples at split time. -/
def kfoldSplit (n k seed : Nat) : Except String (List (List Nat × List Nat)) :=
  if k < 2 then
    .error "ValueError: k-fold cross-validation requires at least one train/test split"
  else if n < k then
    .error "ValueError: Cannot have number of splits greater than the number of samples"
  else .ok (kfoldPairs n k seed)

/-- cv_index_set as built in run_model (line 224): split is applied to the
label list, of which only the length is consulted. -/
def cvIndexSet (labels : List Int) (k seed : Nat) :
    Except String (List (List Nat × List Nat)) :=
  kfoldSplit labels.length k seed

/-! Trainable classifier.  conv_net (cnn_bio.py lines 95-167) builds two
computation paths over one set of variables (reuse=True on the second
call): the convolution/pooling feature stages, a 1024-unit dense layer, a
dropout layer active only when is_training, a final dense projection to
n_classes scores, and a softmax applied only when not is_training.  The
convolution/pooling/flatten stages are kept abstract (the specification
lists the layer topology as an external collaborator); the dense layers,
the dropout semantics of tf.layers.dropout, and the mode switches are
embedded concretely over rationals, with the Bernoulli keep-mask and the
exponential map passed in as explicit arguments. -/

/-- Dot product of two rational vectors. -/
def dotQ (a b : List ℚ) : ℚ :=
  ((a.zip b).map (fun p => p.1 * p.2)).sum

/-- A dense (fully connected) layer given its weight rows and biases. -/
def denseLayer (w : List (List ℚ)) (b : List ℚ) (v : List ℚ) : List ℚ :=
  ((w.zip b).map (fun p => dotQ p.1 v + p.2))

/-- tf.layers.dropout in training mode: each unit is kept according to the
Bernoulli draw recorded in the mask, and kept units are rescaled by
1 / (1 - rate). -/
def dropoutApply (rate : ℚ) (mask : List Bool) (v : List ℚ) : List ℚ :=
  (mask.zip v).map (fun p => if p.1 then p.2 / (1 - rate) else 0)

/-- tf.layers.dropout: active only when the training flag is set,
otherwise the identity. -/
def dropoutLayer (rate : ℚ) (mask : List Bool) (training : Bool) (v : List ℚ) : List ℚ :=
  if training then dropoutApply rate mask v else v

/-- Softmax normalization with the exponential map abstracted: exponentiate
every score and divide by the total. -/
def softmaxBy (expQ : ℚ → ℚ) (v : List ℚ) : List ℚ :=
  (v.map expQ).map (fun x => x / (v.map expQ).sum)

/-- The variables of the ConvNet variable scope: the feature-extraction
stages (conv1, pool1, conv2, pool2, flatten) as one abstract map, and the
two dense layers.  Both conv_net calls in run_model receive the same
record, which is what reuse=True expresses. -/
structure ConvNetWeights where
  feat : List (List (List ℚ)) → List ℚ
  fc2W : List (List ℚ)
  fc2B : List ℚ
  outW : List (List ℚ)
  outB : List ℚ

/-- Embedding of conv_net (cnn_bio.py lines 95-167): feature stages, dense
1024-unit layer, dropout (training mode only), output projection, and
softmax (inference mode only).  Returns (out, fc1, fc2) exactly as the
source does, fc2 being the post-dropout activation. -/
def conv_net (expQ : ℚ → ℚ) (wts : ConvNetWeights) (x : List (List (List ℚ)))
    (dropout : ℚ) (mask : List Bool) (is_training : Bool) :
    List ℚ × List ℚ × List ℚ :=
  let fc1 := wts.feat x
  let fc2 := denseLayer wts.fc2W wts.fc2B fc1
  let fc2d := dropoutLayer dropout mask is_training fc2
  let out := denseLayer wts.outW wts.outB fc2d
  (if is_training then out else softmaxBy expQ out, fc1, fc2d)

/-! Fold runner.  The body of the cross-validation loop in run_model
(cnn_bio.py lines 231-298) is modelled as an event trace: opening the
fold session and running the variable initializer, encoding the first
test sample (lines 240-242), the training loop in which every training
step encodes every train-partition sample and then runs one optimizer
update (lines 244-261), the encoding of the remaining test samples after
training has finished (lines 273-276), and the single held-out
evaluation (line 278). -/

/-- Observable events of one cross-validation run. -/
inductive Ev where
  | sessionInit (fold : Nat)
  | encTest (fold idx : Nat)
  | encTrain (fold step idx : Nat)
  | fitStep (fold step : Nat)
  | evalHeldOut (fold : Nat)
deriving DecidableEq, Repr

/-- Whether an event is an optimizer update. -/
def Ev.isFit : Ev → Bool
  | .fitStep _ _ => true
  | _ => false

/-- Events of one training step: encode every train-partition sample in
order, then run the optimizer once. -/
def stepTrace (fold step : Nat) (trainIdx : List Nat) : List Ev :=
  trainIdx.map (Ev.encTrain fold step) ++ [Ev.fitStep fold step]

/-- Event trace of one fold of run_model, in source order: initializer,
first test sample encoding, n training steps, remaining test sample
encodings, held-out evaluation. -/
def foldTrace (fold : Nat) (trainIdx testIdx : List Nat) (nSteps : Nat) : List Ev :=
  Ev.sessionInit fold ::
    ((testIdx.take 1).map (Ev.encTest fold)
      ++ ((List.range nSteps).map (fun s => stepTrace fold (s + 1) trainIdx)).flatten
      ++ (testIdx.drop 1).map (Ev.encTest fold)
      ++ [Ev.evalHeldOut fold])

/-- Event trace of the whole cross-validation loop; the fold counter
k_fold_step starts at 1. -/
def runTraceFrom (foldNo : Nat) (splits : List (List Nat × List Nat)) (nSteps : Nat) :
    List Ev :=
  match splits with
  | [] => []
  | s :: rest => foldTrace foldNo s.1 s.2 nSteps ++ runTraceFrom (foldNo + 1) rest nSteps

/-- Event trace of run_model over the splits produced by the partitioner. -/
def runTrace (splits : List (List Nat × List Nat)) (nSteps : Nat) : List Ev :=
  runTraceFrom 1 splits nSteps

/-- The events of a fold that happen strictly before the first optimizer
update. -/
def preTraining (tr : List Ev) : List Ev :=
  tr.takeWhile (fun e => !e.isFit)

/-- The events of a fold that happen strictly after the last optimizer
update. -/
def postTraining (tr : List Ev) : List Ev :=
  (tr.reverse.takeWhile (fun e => !e.isFit)).reverse

/-- The property claimed of the fold runner: every test-partition sample
is encoded before the first training step of its fold runs. -/
def testPreMaterialized (fold : Nat) (trainIdx testIdx : List Nat) (nSteps : Nat) : Prop :=
  ∀ t ∈ testIdx, Ev.encTest fold t ∈ preTraining (foldTrace fold trainIdx testIdx nSteps)

/-- Weight-state semantics of the trace: running the initializer stores a
fresh draw for the fold (the random initializer ops re-execute on every
run), an optimizer update transforms the stored weights, every other
event leaves them unchanged.  none models a session with uninitialized
variables. -/
def applyEv {W : Type} (initW : Nat → W) (fitF : Nat → Nat → W → W)
    (w : Option W) : Ev → Option W
  | .sessionInit fold => some (initW fold)
  | .fitStep fold step => w.map (fitF fold step)
  | _ => w

/-- Weight state after interpreting a trace from a given starting state. -/
def weightsAfter {W : Type} (initW : Nat → W) (fitF : Nat → Nat → W → W)
    (w0 : Option W) (tr : List Ev) : Option W :=
  tr.foldl (applyEv initW fitF) w0

/-- Reference denotation of training: apply the per-step update for steps
1..nSteps to a starting weight state. -/
def trainSteps {W : Type} (fitF : Nat → Nat → W → W) (fold : Nat) (w : W)
    (nSteps : Nat) : W :=
  (List.range nSteps).foldl (fun acc s => fitF fold (s + 1) acc) w

/-! Metrics aggregator.  run_model line 301 imports model_evaluation from
cnn/utils.py, which is not part of the source tree under review; the
multi-class Matthews correlation coefficient is therefore modelled from
the specification. -/

/-- Confusion matrix entry: the number of samples with true class i and
predicted class j. -/
def confusionEntry (yT yP : List Nat) (i j : Nat) : Nat :=
  ((yT.zip yP).filter (fun p => p.1 == i && p.2 == j)).length

/-- Per-class predicted total (column sum of the confusion matrix). -/
def colTotal (nc : Nat) (yT yP : List Nat) (j : Nat) : Nat :=
  Finset.sum (Finset.range nc) (fun i => confusionEntry yT yP i j)

/-- Per-class true total (row sum of the confusion matrix). -/
def rowTotal (nc : Nat) (yT yP : List Nat) (i : Nat) : Nat :=
  Finset.sum (Finset.range nc) (fun j => confusionEntry yT yP i j)

/-- Correctly predicted total (trace of the confusion matrix). -/
def correctTotal (nc : Nat) (yT yP : List Nat) : Nat :=
  Finset.sum (Finset.range nc) (fun i => confusionEntry yT yP i i)

/-- Overall sample count (total sum of the confusion matrix). -/
def sampleTotal (nc : Nat) (yT yP : List Nat) : Nat :=
  Finset.sum (Finset.range nc) (fun i => rowTotal nc yT yP i)

/-- Modelled from the spec: numerator of the multi-class Matthews
correlation coefficient, computed from the per-class totals, correctly
predicted totals and overall sample count of the confusion matrix. -/
def mccNumerator (nc : Nat) (yT yP : List Nat) : ℤ :=
  (correctTotal nc yT yP : ℤ) * (sampleTotal nc yT yP : ℤ)
    - Finset.sum (Finset.range nc)
        (fun c => (colTotal nc yT yP c : ℤ) * (rowTotal nc yT yP c : ℤ))

/-- Modelled from the spec: the square of the MCC denominator; the
denominator itself is its square root, so it vanishes exactly when this
quantity vanishes. -/
def mccDenomSq (nc : Nat) (yT yP : List Nat) : ℤ :=
  ((sampleTotal nc yT yP : ℤ) ^ 2
      - Finset.sum (Finset.range nc) (fun c => (colTotal nc yT yP c : ℤ) ^ 2))
    * ((sampleTotal nc yT yP : ℤ) ^ 2
      - Finset.sum (Finset.range nc) (fun c => (rowTotal nc yT yP c : ℤ) ^ 2))

/-- Modelled from the spec: model_evaluation in cnn/utils.py is absent
from the source tree; per the specification the multi-class MCC is
computed directly from the confusion matrix and is defined as the
sentinel 0 whenever the denominator evaluates to 0, never raising.  The
square-root map on the nonnegative denominator square is abstracted as
the argument sqrtQ.  The function is total: no input raises. -/
def matthewsCC (sqrtQ : ℤ → ℚ) (nc : Nat) (yT yP : List Nat) : ℚ :=
  if mccDenomSq nc yT yP = 0 then 0
  else (mccNumerator nc yT yP : ℚ) / sqrtQ (mccDenomSq nc yT yP)

/-! Theorems.  Claim identifiers refer to the frozen claim list for this
repository. -/

/-- Claim C1, counterexample: on a file whose header line is "5 3" the
source labels the sample 3 - 1 = 2 (second token), not 5 - 1 = 4 as the
first-token reading of the specification would; the source embedding and
the specification-worded variant disagree on this directory. -/
theorem get_datasets_first_token_cex :
    get_datasets ['d'] [⟨['f'], true, [['5', ' ', '3']]⟩]
      ≠ get_datasets_firstTok ['d'] [⟨['f'], true, [['5', ' ', '3']]⟩] := by
  decide

/-- Claim C1, amended: whenever get_datasets succeeds, the label recorded
for the i-th regular file is the integer value of the SECOND whitespace
token of its header line, minus one. -/
theorem get_datasets_second_token_label (dPath : Str) (entries : List DirEntry)
    (ps : List Str) (ls : List Int)
    (h : get_datasets dPath entries = .ok (ps, ls)) :
    ∀ (i : Nat) (e : DirEntry), (entries.filter (fun d => d.isFile))[i]? = some e →
      ∃ tok v, (splitWs (headLine e))[1]? = some tok ∧ pyInt tok = some v ∧
        ls[i]? = some (v - 1) := by
  induction entries generalizing ps ls with
  | nil =>
    intro i e hi
    simp at hi
  | cons a rest ih =>
    intro i e hi
    by_cases hf : a.isFile
    · simp only [get_datasets, if_pos hf] at h
      split at h
      · exact Except.noConfusion h
      · next tok htok =>
        split at h
        · exact Except.noConfusion h
        · next v hv =>
          split at h
          · exact Except.noConfusion h
          · next ps' ls' hr =>
            simp only [Except.ok.injEq, Prod.mk.injEq] at h
            obtain ⟨hps, hls⟩ := h
            rw [List.filter_cons_of_pos (by simpa using hf)] at hi
            cases i with
            | zero =>
              simp only [List.getElem?_cons_zero, Option.some.injEq] at hi
              subst hi
              exact ⟨tok, v, htok, hv, by rw [← hls]; simp⟩
            | succ i =>
              simp only [List.getElem?_cons_succ] at hi
              obtain ⟨tok2, v2, h1, h2, h3⟩ := ih ps' ls' hr i e hi
              exact ⟨tok2, v2, h1, h2, by rw [← hls]; simpa using h3⟩
    · simp only [get_datasets, if_neg hf] at h
      rw [List.filter_cons_of_neg (by simpa using hf)] at hi
      exact ih ps ls h i e hi

/-- Claim C1, witness: concrete run of the amended label theorem on a
one-file directory whose header line is "5 3". -/
theorem get_datasets_second_token_label_w :
    ∃ tok v,
      (splitWs (headLine ⟨['f'], true, [['5', ' ', '3']]⟩))[1]? = some tok
        ∧ pyInt tok = some v ∧ ([(2 : Int)])[0]? = some (v - 1) :=
  get_datasets_second_token_label ['d'] [⟨['f'], true, [['5', ' ', '3']]⟩]
    [['d', '/', 'f']] [2] (by decide) 0 ⟨['f'], true, [['5', ' ', '3']]⟩ (by decide)

/-- Claim C9: a regular file whose header lacks a parseable integer in the
consulted position makes get_datasets fail with a propagated error, and
whenever get_datasets succeeds every regular file of the directory
appears in the returned path list, in order, with one label per path (no
file is silently skipped). -/
theorem get_datasets_error_propagation (dPath : Str) (entries : List DirEntry) :
    ((∃ e ∈ entries, e.isFile = true ∧ labelParse e = none) →
        ∃ msg, get_datasets dPath entries = .error msg)
    ∧ (∀ ps ls, get_datasets dPath entries = .ok (ps, ls) →
        ps = (entries.filter (fun d => d.isFile)).map (fun e => pathJoin dPath e.name)
          ∧ ls.length = ps.length) := by
  induction entries with
  | nil =>
    constructor
    · rintro ⟨e, he, -, -⟩
      simp at he
    · intro ps ls h
      simp only [get_datasets, Except.ok.injEq, Prod.mk.injEq] at h
      obtain ⟨hps, hls⟩ := h
      subst hps; subst hls
      simp
  | cons a rest ih =>
    constructor
    · rintro ⟨e, he, hef, hlp⟩
      rcases List.mem_cons.mp he with rfl | hmem
      · simp only [get_datasets, if_pos hef]
        cases htok : (splitWs (headLine e))[1]? with
        | none => exact ⟨_, rfl⟩
        | some tok =>
          have hv : pyInt tok = none := by
            simpa [labelParse, htok] using hlp
          exact ⟨"ValueError: invalid literal for int", by simp [hv]⟩
      · by_cases hf : a.isFile
        · simp only [get_datasets, if_pos hf]
          obtain ⟨msg, hmsg⟩ := ih.1 ⟨e, hmem, hef, hlp⟩
          cases htok : (splitWs (headLine a))[1]? with
          | none => exact ⟨_, rfl⟩
          | some tok =>
            cases hv : pyInt tok with
            | none => exact ⟨"ValueError: invalid literal for int", by simp [hv]⟩
            | some v => exact ⟨msg, by simp [hv, hmsg]⟩
        · simp only [get_datasets, if_neg hf]
          exact ih.1 ⟨e, hmem, hef, hlp⟩
    · intro ps ls h
      by_cases hf : a.isFile
      · simp only [get_datasets, if_pos hf] at h
        split at h
        · exact Except.noConfusion h
        · next tok htok =>
          split at h
          · exact Except.noConfusion h
          · next v hv =>
            split at h
            · exact Except.noConfusion h
            · next ps' ls' hr =>
              simp only [Except.ok.injEq, Prod.mk.injEq] at h
              obtain ⟨hps, hls⟩ := h
              obtain ⟨hps2, hlen⟩ := ih.2 ps' ls' hr
              subst hps; subst hls
              rw [List.filter_cons_of_pos (by simpa using hf)]
              constructor
              · simp [hps2]
              · simpa using hlen
      · simp only [get_datasets, if_neg hf] at h
        rw [List.filter_cons_of_neg (by simpa using hf)]
        exact ih.2 ps ls h

/-- Claim C9, witness: a directory with a single-token header file makes
get_datasets fail, and on a well-formed one-file directory the returned
path list is exactly the regular-file list. -/
theorem get_datasets_error_propagation_w :
    (∃ msg, get_datasets ['d'] [⟨['g'], true, [['>', 'x']]⟩] = .error msg)
    ∧ (([['d', '/', 'f']] : List Str)
          = (([⟨['f'], true, [['5', ' ', '3']]⟩] : List DirEntry).filter
              (fun d => d.isFile)).map (fun e => pathJoin ['d'] e.name)
        ∧ ([(2 : Int)] : List Int).length = ([['d', '/', 'f']] : List Str).length) :=
  ⟨(get_datasets_error_propagation ['d'] [⟨['g'], true, [['>', 'x']]⟩]).1
      ⟨⟨['g'], true, [['>', 'x']]⟩, by simp, rfl, by decide⟩,
   (get_datasets_error_propagation ['d'] [⟨['f'], true, [['5', ' ', '3']]⟩]).2
      [['d', '/', 'f']] [2] (by decide)⟩

/-- Helper: a list member whose image under the row parser has no float
value forces parseRow to fail. -/
theorem parseRow_error_of_bad (r : List Str) (t : Str) (ht : t ∈ r)
    (hbad : pyFloat t = none) : ∃ msg, parseRow r = .error msg := by
  induction r with
  | nil => simp at ht
  | cons a l ih =>
    cases hfa : pyFloat a with
    | none =>
      exact ⟨"ValueError: could not convert string to float",
        by simp [parseRow, exceptMap, hfa]⟩
    | some q =>
      rcases List.mem_cons.mp ht with rfl | hmem
      · rw [hbad] at hfa
        exact Option.noConfusion hfa
      · obtain ⟨msg, hm⟩ := ih hmem
        refine ⟨msg, ?_⟩
        have hm2 : exceptMap
            (fun t =>
              match pyFloat t with
              | some q => Except.ok q
              | none => Except.error "ValueError: could not convert string to float") l
            = Except.error msg := hm
        simp [parseRow, exceptMap, hfa, hm2]

/-- Helper: exceptMap fails when any member of the list fails. -/
theorem exceptMap_error_of_mem (f : α → Except String β) (l : List α) (a : α)
    (ha : a ∈ l) (hfa : ∃ m, f a = .error m) : ∃ m, exceptMap f l = .error m := by
  induction l with
  | nil => simp at ha
  | cons b l ih =>
    cases hfb : f b with
    | error m => exact ⟨m, by simp [exceptMap, hfb]⟩
    | ok v =>
      rcases List.mem_cons.mp ha with rfl | hmem
      · obtain ⟨m, hm⟩ := hfa
        rw [hm] at hfb
        exact Except.noConfusion hfb
      · obtain ⟨m, hm⟩ := ih hmem
        exact ⟨m, by simp [exceptMap, hfb, hm]⟩

/-- Claim C10, counterexample: the first line of this file is non-blank
and does not start with the marker character (it starts with a tab), yet
its token row is absent from the parsed matrix, because the source strips
the line before testing startswith.  The claim as stated (filtering on
the raw line content) therefore fails on the code. -/
theorem read_data_header_filter_cex :
    (pyStrip ['\t', '>', ' ', '9'] ≠ [] ∧ ¬ (['\t', '>', ' ', '9'].headD ' ' = '>'))
    ∧ splitWs ['\t', '>', ' ', '9'] ∉ rawRows [['\t', '>', ' ', '9'], ['1', ' ', '2']] := by
  decide

/-- Claim C10, amended: read_data filters lines only by content, never by
position: whenever the first line of a file strips to a nonempty string
that does not start with the marker character, its whitespace tokens form
the first row of the parsed matrix, and a non-numeric token among them
makes the matrix conversion fail rather than the line being skipped as a
header. -/
theorem read_data_content_filter (h0 : Str) (rest : List Str)
    (h1 : pyStrip h0 ≠ []) (h2 : (pyStrip h0).headD ' ' ≠ '>') :
    (rawRows (h0 :: rest)).head? = some (splitWs (pyStrip h0))
    ∧ ((∃ t ∈ splitWs (pyStrip h0), pyFloat t = none) →
        ∃ msg, parseMatrix (h0 :: rest) = .error msg) := by
  obtain ⟨c, cs, hc⟩ := List.exists_cons_of_ne_nil h1
  have hcgt : c ≠ '>' := by simpa [hc] using h2
  have hrows : rawRows (h0 :: rest)
      = splitWs (pyStrip h0) :: (keptLines rest).map splitWs := by
    simp [rawRows, keptLines, List.filter_cons, hc, hcgt]
  constructor
  · rw [hrows]
    rfl
  · rintro ⟨t, ht, hbad⟩
    have hrowbad : ∃ msg, parseRow (splitWs (pyStrip h0)) = .error msg :=
      parseRow_error_of_bad _ t ht hbad
    have hmem : splitWs (pyStrip h0) ∈ rawRows (h0 :: rest) := by
      rw [hrows]
      exact List.mem_cons_self _ _
    obtain ⟨msg, hm⟩ := exceptMap_error_of_mem parseRow _ _ hmem hrowbad
    exact ⟨msg, by simp [parseMatrix, hm]⟩

/-- Claim C10, witness: concrete run of the content-filter theorem on a
one-line file whose header is " 1 x"; the header is kept as a row and the
non-numeric token x makes the conversion fail. -/
theorem read_data_content_filter_w :
    ((rawRows [[' ', '1', ' ', 'x']]).head?
        = some (splitWs (pyStrip [' ', '1', ' ', 'x'])))
    ∧ ((∃ t ∈ splitWs (pyStrip [' ', '1', ' ', 'x']), pyFloat t = none) →
        ∃ msg, parseMatrix [[' ', '1', ' ', 'x']] = .error msg) :=
  read_data_content_filter [' ', '1', ' ', 'x'] [] (by decide) (by decide)

/-- Claim C3, counterexample: on an empty matrix (a file whose kept lines
are empty) the encoder does not return an H-row tensor: np.array of an
empty list is one-dimensional and np.lib.pad raises, so encodeMat fails
instead of producing the claimed 2-row zero tensor. -/
theorem encode_empty_matrix_cex :
    encodeMat ([] : List (List ℚ)) 2 2
      = .error "ValueError: pad width does not match array dimensions" := by
  rfl

/-- Claim C3, amended: for every NONEMPTY matrix whose rows all have width
W and every target height H, the encoder succeeds and returns a tensor of
shape (H, W, 1): exactly H rows, the first min(rows, H) of which are the
rows of the input (each entry boxed into its one-element channel), the
remaining rows all zero. -/
theorem encode_shape_spec (mat : List (List ℚ)) (H Wd : Nat)
    (hne : mat ≠ []) (hw : ∀ r ∈ mat, r.length = Wd) :
    ∃ t, encodeMat mat H Wd = .ok t ∧
      t.length = H ∧
      (∀ i : Nat, i < mat.length → i < H →
        t[i]? = (mat[i]?).map (fun r => r.map (fun x => [x]))) ∧
      (∀ i : Nat, mat.length ≤ i → i < H →
        t[i]? = some (List.replicate Wd [(0 : ℚ)])) ∧
      (∀ row ∈ t, row.length = Wd ∧ ∀ cell ∈ row, cell.length = 1) := by
  have hemp : mat.isEmpty = false := by
    cases mat with
    | nil => exact absurd rfl hne
    | cons r0 mat' => rfl
  have hw0 : ((mat.head?).getD []).length = Wd := by
    cases mat with
    | nil => exact absurd rfl hne
    | cons r0 mat' => exact hw r0 (List.mem_cons_self _ _)
  by_cases hlen : H < mat.length
  · refine ⟨(mat.take H).map (fun row => row.map (fun x => [x])), ?_, ?_, ?_, ?_, ?_⟩
    · simp [encodeMat, hemp, hw0, hlen]
    · simp [List.length_take]
      omega
    · intro i hi1 hi2
      rw [List.getElem?_map, List.getElem?_take]
      simp [hi2]
    · intro i hi1 hi2
      omega
    · intro row hrow
      obtain ⟨r, hr, rfl⟩ := List.mem_map.mp hrow
      refine ⟨by simpa using hw r (List.mem_of_mem_take hr), ?_⟩
      intro cell hcell
      obtain ⟨x, hx, rfl⟩ := List.mem_map.mp hcell
      rfl
  · refine ⟨(mat ++ List.replicate (H - mat.length) (List.replicate Wd (0 : ℚ))).map
        (fun row => row.map (fun x => [x])), ?_, ?_, ?_, ?_, ?_⟩
    · simp [encodeMat, hemp, hw0, hlen]
    · simp
      omega
    · intro i hi1 hi2
      rw [List.getElem?_map, List.getElem?_append]
      simp [hi1]
    · intro i hi1 hi2
      rw [List.getElem?_map, List.getElem?_append_right hi1]
      have : i - mat.length < H - mat.length := by omega
      simp [List.getElem?_replicate, this]
    · intro row hrow
      obtain ⟨r, hr, rfl⟩ := List.mem_map.mp hrow
      have hrl : r.length = Wd := by
        rcases List.mem_append.mp hr with hm | hm
        · exact hw r hm
        · rw [List.eq_of_mem_replicate hm]
          simp
      refine ⟨by simpa using hrl, ?_⟩
      intro cell hcell
      obtain ⟨x, hx, rfl⟩ := List.mem_map.mp hcell
      rfl

/-- Claim C3, witness: a concrete 1-row, width-2 matrix encoded to height
3 satisfies the amended shape theorem. -/
theorem encode_shape_spec_w :
    ∃ t, encodeMat ([[1, 2]] : List (List ℚ)) 3 2 = .ok t ∧
      t.length = 3 ∧
      (∀ i : Nat, i < ([[1, 2]] : List (List ℚ)).length → i < 3 →
        t[i]? = ((([[1, 2]] : List (List ℚ)))[i]?).map (fun r => r.map (fun x => [x]))) ∧
      (∀ i : Nat, ([[1, 2]] : List (List ℚ)).length ≤ i → i < 3 →
        t[i]? = some (List.replicate 2 [(0 : ℚ)])) ∧
      (∀ row ∈ t, row.length = 2 ∧ ∀ cell ∈ row, cell.length = 1) :=
  encode_shape_spec [[1, 2]] 3 2 (by decide) (by decide)

/-- Claim C6: the two conv_net paths share one weight record; the
training path applies dropout at the configured rate and returns the raw
output scores, while the inference path applies no dropout (its output is
independent of the dropout rate and of the Bernoulli mask) and normalizes
the scores with softmax, which is the form consumed by the argmax
decoding in run_model. -/
theorem conv_net_modes (expQ : ℚ → ℚ) (wts : ConvNetWeights)
    (x : List (List (List ℚ))) (rate : ℚ) (mask : List Bool) :
    (conv_net expQ wts x rate mask true).1
        = denseLayer wts.outW wts.outB
            (dropoutApply rate mask (denseLayer wts.fc2W wts.fc2B (wts.feat x)))
    ∧ (conv_net expQ wts x rate mask false).1
        = softmaxBy expQ
            (denseLayer wts.outW wts.outB (denseLayer wts.fc2W wts.fc2B (wts.feat x)))
    ∧ (∀ (rate2 : ℚ) (mask2 : List Bool),
        conv_net expQ wts x rate2 mask2 false = conv_net expQ wts x rate mask false) :=
  ⟨rfl, rfl, fun _ _ => rfl⟩

/-- Helper: takeWhile walks through a first block that satisfies the
predicate everywhere. -/
theorem takeWhile_append_all {α : Type} (p : α → Bool) (l1 l2 : List α)
    (h : ∀ a ∈ l1, p a = true) :
    (l1 ++ l2).takeWhile p = l1 ++ l2.takeWhile p := by
  induction l1 with
  | nil => simp
  | cons a l ih =>
    have ha : p a = true := h a (List.mem_cons_self _ _)
    simp only [List.cons_append, List.takeWhile_cons, ha, if_true]
    rw [ih (fun b hb => h b (List.mem_cons_of_mem _ hb))]

/-- Helper: an element of a fit-free suffix lies after the last optimizer
update of the trace. -/
theorem mem_postTraining_append (A B : List Ev)
    (hB : ∀ a ∈ B, a.isFit = false) (e : Ev) (he : e ∈ B) :
    e ∈ postTraining (A ++ B) := by
  unfold postTraining
  rw [List.reverse_append]
  rw [takeWhile_append_all _ _ _
    (by
      intro a ha
      rw [List.mem_reverse] at ha
      simp [hB a ha])]
  rw [List.reverse_append, List.reverse_reverse]
  exact List.mem_append.mpr (Or.inr he)

/-- Claim C2, counterexample: with test partition (0, 1), train partition
(2) and one training step, the second test sample is not encoded before
the first optimizer update: the pre-materialization claim fails on the
fold trace of run_model. -/
theorem fold_test_prematerialize_cex : ¬ testPreMaterialized 1 [2] [0, 1] 1 := by
  unfold testPreMaterialized
  decide

/-- Claim C2, amended: in every fold, only the FIRST test-partition sample
is encoded after classifier initialization and before the first training
step; the remaining test samples are encoded after the last training step
and before the held-out evaluation; every test sample is encoded exactly
once per fold. -/
theorem fold_test_encoding_order (fold t0 : Nat) (rest trainIdx : List Nat)
    (nSteps : Nat) :
    Ev.encTest fold t0 ∈ preTraining (foldTrace fold trainIdx (t0 :: rest) nSteps)
    ∧ (∀ t ∈ rest,
        Ev.encTest fold t ∈ postTraining (foldTrace fold trainIdx (t0 :: rest) nSteps))
    ∧ (∀ t : Nat,
        (foldTrace fold trainIdx (t0 :: rest) nSteps).count (Ev.encTest fold t)
          = (t0 :: rest).count t) := by
  refine ⟨?_, ?_, ?_⟩
  · simp [preTraining, foldTrace, List.takeWhile_cons, Ev.isFit]
  · intro t ht
    have hsplit : foldTrace fold trainIdx (t0 :: rest) nSteps
        = (Ev.sessionInit fold :: Ev.encTest fold t0 ::
            ((List.range nSteps).map (fun s => stepTrace fold (s + 1) trainIdx)).flatten)
          ++ (rest.map (Ev.encTest fold) ++ [Ev.evalHeldOut fold]) := by
      simp [foldTrace]
    rw [hsplit]
    refine mem_postTraining_append _ _ ?_ _ ?_
    · intro a ha
      rcases List.mem_append.mp ha with h1 | h2
      · obtain ⟨u, hu, rfl⟩ := List.mem_map.mp h1
        rfl
      · rw [List.mem_singleton.mp h2]
        rfl
    · exact List.mem_append.mpr (Or.inl (List.mem_map.mpr ⟨t, ht, rfl⟩))
  · intro t
    have hmap : ∀ (l : List Nat),
        (l.map (Ev.encTest fold)).count (Ev.encTest fold t) = l.count t := by
      intro l
      induction l with
      | nil => rfl
      | cons a l ih =>
        simp only [List.map_cons, List.count_cons, ih, Ev.encTest.injEq]
        by_cases hat : a = t
        · simp [hat]
        · simp [hat]
    have hJ : (((List.range nSteps).map
          (fun s => stepTrace fold (s + 1) trainIdx)).flatten).count
            (Ev.encTest fold t) = 0 := by
      rw [List.count_eq_zero]
      intro hmem
      obtain ⟨L, hL, hmemL⟩ := List.mem_flatten.mp hmem
      obtain ⟨s, hs, rfl⟩ := List.mem_map.mp hL
      rcases List.mem_append.mp hmemL with h1 | h2
      · obtain ⟨u, hu, hEq⟩ := List.mem_map.mp h1
        exact Ev.noConfusion hEq
      · exact Ev.noConfusion (List.mem_singleton.mp h2)
    simp [foldTrace, List.count_append, List.count_cons, hJ, hmap]

/-- Claim C2, witness: concrete instance of the encoding-order theorem
with test partition (0, 1), train partition (2), one training step. -/
theorem fold_test_encoding_order_w :
    Ev.encTest 1 0 ∈ preTraining (foldTrace 1 [2] [0, 1] 1)
    ∧ (∀ t ∈ [1], Ev.encTest 1 t ∈ postTraining (foldTrace 1 [2] [0, 1] 1))
    ∧ (∀ t : Nat, (foldTrace 1 [2] [0, 1] 1).count (Ev.encTest 1 t)
        = ([0, 1] : List Nat).count t) :=
  fold_test_encoding_order 1 0 [1] [2] 1

/-- Helper: interpreting an appended trace is sequential composition. -/
theorem weightsAfter_append {W : Type} (initW : Nat → W) (fitF : Nat → Nat → W → W)
    (w0 : Option W) (l1 l2 : List Ev) :
    weightsAfter initW fitF w0 (l1 ++ l2)
      = weightsAfter initW fitF (weightsAfter initW fitF w0 l1) l2 := by
  simp [weightsAfter, List.foldl_append]

/-- Helper: encoding test samples does not touch the stored weights. -/
theorem weightsAfter_encTest_map {W : Type} (initW : Nat → W)
    (fitF : Nat → Nat → W → W) (w0 : Option W) (fold : Nat) (l : List Nat) :
    weightsAfter initW fitF w0 (l.map (Ev.encTest fold)) = w0 := by
  induction l generalizing w0 with
  | nil => rfl
  | cons a l ih => simp [weightsAfter, applyEv] at ih ⊢; exact ih w0

/-- Helper: one training step transforms the stored weights by the fit
update and by nothing else. -/
theorem weightsAfter_stepTrace {W : Type} (initW : Nat → W)
    (fitF : Nat → Nat → W → W) (w0 : Option W) (fold s : Nat) (trainIdx : List Nat) :
    weightsAfter initW fitF w0 (stepTrace fold s trainIdx)
      = w0.map (fitF fold s) := by
  unfold stepTrace
  rw [weightsAfter_append]
  have henc : weightsAfter initW fitF w0 (trainIdx.map (Ev.encTrain fold s)) = w0 := by
    induction trainIdx generalizing w0 with
    | nil => rfl
    | cons a l ih => simp [weightsAfter, applyEv] at ih ⊢; exact ih w0
  rw [henc]
  rfl

/-- Helper: the whole training loop of one fold maps stored weights w to
the nSteps-fold fit iterate of w. -/
theorem weightsAfter_steps {W : Type} (initW : Nat → W)
    (fitF : Nat → Nat → W → W) (fold : Nat) (trainIdx : List Nat) (w : W) :
    ∀ nSteps : Nat,
      weightsAfter initW fitF (some w)
          (((List.range nSteps).map (fun s => stepTrace fold (s + 1) trainIdx)).flatten)
        = some (trainSteps fitF fold w nSteps) := by
  intro nSteps
  induction nSteps with
  | zero => rfl
  | succ n ih =>
    rw [List.range_succ, List.map_append, List.flatten_append, weightsAfter_append, ih]
    simp [weightsAfter_stepTrace, trainSteps, List.range_succ]

/-- Claim C7: in every fold the classifier weights are re-initialized from
the fold-fresh random draw: whatever weight state an earlier fold left
behind (any incoming w0), the fold trace ends in the nSteps-fold training
iterate of the fresh draw for THIS fold; the fold trace begins with the
initializer event; and along the whole cross-validation run the state
after the first k+1 folds depends only on the draw of fold k+1, never on
weights trained in earlier folds. -/
theorem fold_fresh_weights {W : Type} (initW : Nat → W) (fitF : Nat → Nat → W → W)
    (fold : Nat) (trainIdx testIdx : List Nat) (nSteps : Nat) :
    (∀ w0 : Option W,
        weightsAfter initW fitF w0 (foldTrace fold trainIdx testIdx nSteps)
          = some (trainSteps fitF fold (initW fold) nSteps))
    ∧ (foldTrace fold trainIdx testIdx nSteps).head? = some (Ev.sessionInit fold)
    ∧ (∀ splits : List (List Nat × List Nat), ∀ k : Nat, k < splits.length →
        weightsAfter initW fitF none (runTrace (splits.take (k + 1)) nSteps)
          = some (trainSteps fitF (k + 1) (initW (k + 1)) nSteps)) := by
  have hfold : ∀ (fold : Nat) (tI tE : List Nat) (w0 : Option W),
      weightsAfter initW fitF w0 (foldTrace fold tI tE nSteps)
        = some (trainSteps fitF fold (initW fold) nSteps) := by
    intro fold tI tE w0
    unfold foldTrace
    have hcons : ∀ (e : Ev) (l : List Ev) (w : Option W),
        weightsAfter initW fitF w (e :: l)
          = weightsAfter initW fitF (applyEv initW fitF w e) l := by
      intro e l w
      rfl
    rw [hcons]
    have : applyEv initW fitF w0 (Ev.sessionInit fold) = some (initW fold) := rfl
    rw [this]
    simp only [weightsAfter_append, weightsAfter_encTest_map, weightsAfter_steps]
    rfl
  have hrun : ∀ (splits : List (List Nat × List Nat)) (foldNo : Nat) (w0 : Option W),
      splits ≠ [] →
      weightsAfter initW fitF w0 (runTraceFrom foldNo splits nSteps)
        = some (trainSteps fitF (foldNo + splits.length - 1)
            (initW (foldNo + splits.length - 1)) nSteps) := by
    intro splits
    induction splits with
    | nil => intro foldNo w0 h; exact absurd rfl h
    | cons sp rest ih =>
      intro foldNo w0 h
      simp only [runTraceFrom]
      rw [weightsAfter_append]
      rcases eq_or_ne rest [] with rfl | hne
      · rw [hfold foldNo sp.1 sp.2]
        simp [runTraceFrom, weightsAfter]
      · rw [ih (foldNo + 1) _ hne]
        have hidx : foldNo + 1 + rest.length - 1 = foldNo + (sp :: rest).length - 1 := by
          simp only [List.length_cons]
          omega
        rw [hidx]
  refine ⟨fun w0 => hfold fold trainIdx testIdx w0, rfl, ?_⟩
  intro splits k hk
  have hlen : (splits.take (k + 1)).length = k + 1 := by
    rw [List.length_take]
    omega
  have hne : splits.take (k + 1) ≠ [] := by
    intro hcon
    rw [hcon] at hlen
    simp at hlen
  rw [runTrace, hrun _ 1 none hne, hlen]
  have h2 : 1 + (k + 1) - 1 = k + 1 := by omega
  rw [h2]

/-- Claim C7, witness: concrete instance on a 2-fold run with a counting
fit update; the state after fold 1 is the fresh draw of fold 1 trained
for 2 steps. -/
theorem fold_fresh_weights_w :
    weightsAfter (fun k => k) (fun _ _ w => w + 1) none
        (runTrace (([([0], [1]), ([1], [0])] : List (List Nat × List Nat)).take (0 + 1)) 2)
      = some (trainSteps (fun _ _ w => w + 1) (0 + 1) ((fun k : Nat => k) (0 + 1)) 2) :=
  (fold_fresh_weights (fun k => k) (fun _ _ w => w + 1) 1 [0] [1] 2).2.2
    [([0], [1]), ([1], [0])] 0 (by decide)

/-- Claim C8: on any prediction vector concentrated in one class, the
column-sum factor of the squared MCC denominator vanishes, so the guarded
matthewsCC returns the sentinel 0; being a total function it raises
nothing. -/
theorem mcc_degenerate_zero (sqrtQ : ℤ → ℚ) (nc : Nat) (yT yP : List Nat)
    (c : Nat) (h : ∀ p ∈ yP, p = c) :
    matthewsCC sqrtQ nc yT yP = 0 := by
  have hentry : ∀ (i j : Nat), j ≠ c → confusionEntry yT yP i j = 0 := by
    intro i j hj
    unfold confusionEntry
    rw [List.length_eq_zero]
    rw [List.filter_eq_nil_iff]
    intro p hp
    have hp2 : p.2 ∈ yP := (List.of_mem_zip hp).2
    have := h p.2 hp2
    simp [this, hj]
    exact fun _ hcj => hj hcj.symm
  have hcol : ∀ j, j ≠ c → colTotal nc yT yP j = 0 := by
    intro j hj
    unfold colTotal
    exact Finset.sum_eq_zero (fun i _ => hentry i j hj)
  have hs : (sampleTotal nc yT yP : ℤ)
      = Finset.sum (Finset.range nc) (fun j => (colTotal nc yT yP j : ℤ)) := by
    unfold sampleTotal rowTotal colTotal
    push_cast
    rw [Finset.sum_comm]
  have hfac : (sampleTotal nc yT yP : ℤ) ^ 2
      - Finset.sum (Finset.range nc) (fun j => (colTotal nc yT yP j : ℤ) ^ 2) = 0 := by
    rw [hs]
    by_cases hc : c < nc
    · rw [Finset.sum_eq_single_of_mem c (Finset.mem_range.mpr hc)
        (fun b _ hb => by rw [hcol b hb]; norm_num)]
      rw [Finset.sum_eq_single_of_mem c (Finset.mem_range.mpr hc)
        (fun b _ hb => by rw [hcol b hb]; norm_num)]
      ring
    · rw [Finset.sum_eq_zero (fun j hj => by
        rw [hcol j (by intro hcon; exact hc (hcon ▸ Finset.mem_range.mp hj))]
        norm_num)]
      rw [Finset.sum_eq_zero (fun j hj => by
        rw [hcol j (by intro hcon; exact hc (hcon ▸ Finset.mem_range.mp hj))]
        norm_num)]
      ring
  have hden : mccDenomSq nc yT yP = 0 := by
    unfold mccDenomSq
    rw [hfac, zero_mul]
  unfold matthewsCC
  rw [if_pos hden]

/-- Claim C8, witness: two samples both predicted as class 1 give MCC 0
under an arbitrary square-root map. -/
theorem mcc_degenerate_zero_w :
    matthewsCC (fun _ => 0) 2 [0, 1] [1, 1] = 0 :=
  mcc_degenerate_zero (fun _ => 0) 2 [0, 1] [1, 1] 1 (by decide)

/-- Helper: picking position j and the remainder is a permutation of the
list. -/
theorem getD_cons_eraseIdx_perm :
    ∀ (l : List Nat) (j : Nat), j < l.length →
      List.Perm (l.getD j 0 :: l.eraseIdx j) l := by
  intro l
  induction l with
  | nil => intro j hj; simp at hj
  | cons a t ih =>
    intro j hj
    cases j with
    | zero => simp
    | succ j =>
      have hjt : j < t.length := by simpa using hj
      have h1 : (a :: t).getD (j + 1) 0 = t.getD j 0 := rfl
      have h2 : (a :: t).eraseIdx (j + 1) = a :: t.eraseIdx j := rfl
      rw [h1, h2]
      exact (List.Perm.swap a (t.getD j 0) (t.eraseIdx j)).trans ((ih j hjt).cons a)

/-- Helper: the fuelled selection shuffle permutes its input whenever the
fuel covers the list length. -/
theorem drawShuffle_perm :
    ∀ (fuel s : Nat) (l : List Nat), l.length ≤ fuel →
      List.Perm (drawShuffle s fuel l) l := by
  intro fuel
  induction fuel with
  | zero =>
    intro s l h
    have : l = [] := List.eq_nil_of_length_eq_zero (Nat.le_zero.mp h)
    subst this
    simp [drawShuffle]
  | succ fuel ih =>
    intro s l h
    cases l with
    | nil => simp [drawShuffle]
    | cons a t =>
      have hj : s % (a :: t).length < (a :: t).length := Nat.mod_lt _ (by simp)
      have hlen : ((a :: t).eraseIdx (s % (a :: t).length)).length ≤ fuel := by
        rw [List.length_eraseIdx_of_lt hj]
        simpa using h
      exact ((ih (lcgStep s) _ hlen).cons _).trans (getD_cons_eraseIdx_perm _ _ hj)

/-- The shuffled order is a permutation of the index range. -/
theorem shuffleIdx_perm (seed n : Nat) :
    List.Perm (shuffleIdx seed n) (List.range n) :=
  drawShuffle_perm n (lcgStep seed) (List.range n) (by simp)

/-- The shuffled order has length n. -/
theorem shuffleIdx_length (seed n : Nat) : (shuffleIdx seed n).length = n := by
  rw [(shuffleIdx_perm seed n).length_eq, List.length_range]

/-- The shuffled order has no duplicate indices. -/
theorem shuffleIdx_nodup (seed n : Nat) : (shuffleIdx seed n).Nodup :=
  ((shuffleIdx_perm seed n).nodup_iff).mpr (List.nodup_range n)

/-- Membership in the shuffled order is membership in the index range. -/
theorem mem_shuffleIdx (seed n j : Nat) : j ∈ shuffleIdx seed n ↔ j < n := by
  rw [(shuffleIdx_perm seed n).mem_iff, List.mem_range]

/-- Helper: the fold offsets advance by exactly the fold sizes. -/
theorem foldStart_succ (n k i : Nat) :
    foldStart n k (i + 1) = foldStart n k i + foldSize n k i := by
  unfold foldStart foldSize
  rw [Nat.succ_mul]
  rcases Nat.lt_or_ge i (n % k) with h | h
  · rw [if_pos h, min_eq_left (Nat.le_of_lt h), min_eq_left (Nat.succ_le_of_lt h)]
    omega
  · rw [if_neg (Nat.not_lt.mpr h), min_eq_right h,
      min_eq_right (le_trans h (Nat.le_succ i))]
    omega

/-- Helper: fold offsets are monotone. -/
theorem foldStart_mono (n k : Nat) {i j : Nat} (h : i ≤ j) :
    foldStart n k i ≤ foldStart n k j := by
  unfold foldStart
  exact Nat.add_le_add (Nat.mul_le_mul_right _ h) (min_le_min h (le_refl _))

/-- Helper: the k fold offsets exhaust the sample range. -/
theorem foldStart_k (n k : Nat) (hk : 0 < k) : foldStart n k k = n := by
  unfold foldStart
  have h1 : n % k < k := Nat.mod_lt _ hk
  rw [min_eq_right (le_of_lt h1)]
  have h2 := Nat.div_add_mod n k
  omega

/-- Helper: each fold block fits inside the sample range. -/
theorem foldStart_add_size_le (n k i : Nat) (hk : 0 < k) (hik : i < k) :
    foldStart n k i + foldSize n k i ≤ n := by
  rw [← foldStart_succ]
  calc foldStart n k (i + 1) ≤ foldStart n k k := foldStart_mono n k hik
    _ = n := foldStart_k n k hk

/-- Helper: each test block has exactly its fold size. -/
theorem testBlock_length (n k seed i : Nat) (hk : 0 < k) (hik : i < k) :
    (testBlock n k seed i).length = foldSize n k i := by
  unfold testBlock
  rw [List.length_take, List.length_drop, shuffleIdx_length]
  have := foldStart_add_size_le n k i hk hik
  omega

/-- Helper: the first m test blocks concatenate to the first offset-m
samples of the shuffled order. -/
theorem blocks_flatten (n k seed : Nat) :
    ∀ m : Nat, ((List.range m).map (testBlock n k seed)).flatten
      = (shuffleIdx seed n).take (foldStart n k m) := by
  intro m
  induction m with
  | zero => simp [foldStart]
  | succ m ih =>
    rw [List.range_succ, List.map_append, List.flatten_append, ih]
    simp only [List.map_cons, List.map_nil, List.flatten_cons, List.flatten_nil,
      List.append_nil]
    rw [foldStart_succ, List.take_add]
    rfl

/-- Helper: all k test blocks together are exactly the shuffled order. -/
theorem blocks_flatten_eq (n k seed : Nat) (hk : 0 < k) :
    ((List.range k).map (testBlock n k seed)).flatten = shuffleIdx seed n := by
  rw [blocks_flatten, foldStart_k n k hk]
  exact List.take_of_length_le (le_of_eq (shuffleIdx_length seed n))

/-- Helper: each test block is duplicate-free. -/
theorem testBlock_nodup (n k seed i : Nat) : (testBlock n k seed i).Nodup := by
  have hsub : List.Sublist (testBlock n k seed i) (shuffleIdx seed n) := by
    unfold testBlock
    exact (List.take_sublist _ _).trans (List.drop_sublist _ _)
  exact (shuffleIdx_nodup seed n).sublist hsub

/-- Helper: test block members lie in the sample range. -/
theorem mem_testBlock_lt (n k seed i j : Nat) (h : j ∈ testBlock n k seed i) :
    j < n := by
  unfold testBlock at h
  exact (mem_shuffleIdx seed n j).mp (List.mem_of_mem_drop (List.mem_of_mem_take h))

/-- Helper: filtering the index range by membership in a duplicate-free
in-range block keeps exactly the block's number of elements. -/
theorem length_filter_contains (n : Nat) (blk : List Nat) (hnd : blk.Nodup)
    (hsub : ∀ j ∈ blk, j < n) :
    ((List.range n).filter (fun j => blk.contains j)).length = blk.length := by
  have h1 : ((List.range n).filter (fun j => blk.contains j)).Nodup :=
    (List.nodup_range n).filter _
  have hmem : ∀ j : Nat,
      j ∈ (List.range n).filter (fun j2 => blk.contains j2) ↔ j ∈ blk := by
    intro j
    constructor
    · intro hin
      have h2 := (List.mem_filter.mp hin).2
      exact List.elem_iff.mp h2
    · intro hin
      exact List.mem_filter.mpr
        ⟨List.mem_range.mpr (hsub j hin), List.elem_iff.mpr hin⟩
  rw [← List.toFinset_card_of_nodup h1, ← List.toFinset_card_of_nodup hnd]
  congr 1
  apply Finset.ext
  intro a
  simp only [List.mem_toFinset]
  exact hmem a

/-- Claim C4, counterexample: with two folds over a single sample the
partitioner raises (sklearn forbids more splits than samples), so no list
of K (train, test) pairs is produced; the claim quantified over every N
fails at N = 1, K = 2. -/
theorem kfold_more_splits_than_samples_cex :
    kfoldSplit 1 2 0
      = .error "ValueError: Cannot have number of splits greater than the number of samples" := by
  rfl

/-- Claim C4, amended: for every K at least 2, every seed, and every
sample count N at least K, the partitioner succeeds and yields exactly K
(train, test) pairs whose test sets are pairwise disjoint, whose test
sets cover the index range, whose train set in each fold is the exact
complement of its test set within the range, and whose test sizes are
floor(N/K) or ceil(N/K). -/
theorem kfold_partition (n k seed : Nat) (hk : 2 ≤ k) (hn : k ≤ n) :
    kfoldSplit n k seed = .ok (kfoldPairs n k seed)
    ∧ (kfoldPairs n k seed).length = k
    ∧ (∀ p ∈ kfoldPairs n k seed, ∀ j : Nat, j ∈ p.1 ↔ j < n ∧ j ∉ p.2)
    ∧ List.Pairwise (fun p q => ∀ j : Nat, j ∈ p.2 → j ∉ q.2) (kfoldPairs n k seed)
    ∧ (∀ j : Nat, j < n ↔ ∃ p ∈ kfoldPairs n k seed, j ∈ p.2)
    ∧ (∀ p ∈ kfoldPairs n k seed,
        p.2.length = n / k ∨ p.2.length = (n + k - 1) / k) := by
  have hk0 : 0 < k := by omega
  refine ⟨?_, ?_, ?_, ?_, ?_, ?_⟩
  · unfold kfoldSplit
    rw [if_neg (by omega), if_neg (by omega)]
  · simp [kfoldPairs]
  · intro p hp j
    obtain ⟨i, hi, rfl⟩ := List.mem_map.mp hp
    constructor
    · intro hjt
      obtain ⟨hjr, hb⟩ := List.mem_filter.mp hjt
      have hjn := List.mem_range.mp hjr
      refine ⟨hjn, fun hcon => ?_⟩
      have hb2 := (List.mem_filter.mp hcon).2
      rw [hb2] at hb
      simp at hb
    · rintro ⟨hjn, hnt⟩
      refine List.mem_filter.mpr ⟨List.mem_range.mpr hjn, ?_⟩
      by_cases hb : (testBlock n k seed i).contains j = true
      · exact absurd (List.mem_filter.mpr ⟨List.mem_range.mpr hjn, hb⟩) hnt
      · simpa using hb
  · have hnodflat : (((List.range k).map (testBlock n k seed)).flatten).Nodup := by
      rw [blocks_flatten_eq n k seed hk0]
      exact shuffleIdx_nodup seed n
    have hdisj := (List.nodup_flatten.mp hnodflat).2
    have hdisj2 : (List.range k).Pairwise
        (fun a b => List.Disjoint (testBlock n k seed a) (testBlock n k seed b)) :=
      List.pairwise_map.mp hdisj
    unfold kfoldPairs
    rw [List.pairwise_map]
    refine hdisj2.imp ?_
    intro a b hD j hja hjb
    have h1 : j ∈ testBlock n k seed a := List.elem_iff.mp (List.mem_filter.mp hja).2
    have h2 : j ∈ testBlock n k seed b := List.elem_iff.mp (List.mem_filter.mp hjb).2
    exact hD h1 h2
  · intro j
    constructor
    · intro hjn
      have hjf : j ∈ (((List.range k).map (testBlock n k seed)).flatten) := by
        rw [blocks_flatten_eq n k seed hk0]
        exact (mem_shuffleIdx seed n j).mpr hjn
      obtain ⟨L, hL, hjL⟩ := List.mem_flatten.mp hjf
      obtain ⟨i, hi, rfl⟩ := List.mem_map.mp hL
      refine ⟨((List.range n).filter
          (fun j2 => !(testBlock n k seed i).contains j2),
        (List.range n).filter (fun j2 => (testBlock n k seed i).contains j2)),
        List.mem_map.mpr ⟨i, hi, rfl⟩, ?_⟩
      exact List.mem_filter.mpr ⟨List.mem_range.mpr hjn, List.elem_iff.mpr hjL⟩
    · rintro ⟨p, hp, hj⟩
      obtain ⟨i, hi, rfl⟩ := List.mem_map.mp hp
      exact List.mem_range.mp (List.mem_filter.mp hj).1
  · intro p hp
    obtain ⟨i, hi, rfl⟩ := List.mem_map.mp hp
    have hik : i < k := List.mem_range.mp hi
    have hblk : ((List.range n).filter
        (fun j => (testBlock n k seed i).contains j)).length
          = foldSize n k i := by
      rw [length_filter_contains n _ (testBlock_nodup n k seed i)
        (fun j hj => mem_testBlock_lt n k seed i j hj)]
      exact testBlock_length n k seed i hk0 hik
    rw [hblk]
    unfold foldSize
    rcases Nat.lt_or_ge i (n % k) with h | h
    · right
      have hr1 : 1 ≤ n % k := by omega
      have hrk : n % k < k := Nat.mod_lt _ hk0
      have hmod := Nat.div_add_mod n k
      have hEq : n + k - 1 = k * (n / k + 1) + (n % k - 1) := by
        rw [Nat.mul_succ]
        omega
      have hsmall : (n % k - 1) / k = 0 := Nat.div_eq_of_lt (by omega)
      rw [if_pos h, hEq, Nat.mul_add_div hk0, hsmall]
    · left
      rw [if_neg (Nat.not_lt.mpr h)]
      omega

/-- Claim C4, witness: the partition properties instantiated for 5
samples, 2 folds, seed 0. -/
theorem kfold_partition_w :
    kfoldSplit 5 2 0 = .ok (kfoldPairs 5 2 0)
    ∧ (kfoldPairs 5 2 0).length = 2
    ∧ (∀ p ∈ kfoldPairs 5 2 0, ∀ j : Nat, j ∈ p.1 ↔ j < 5 ∧ j ∉ p.2)
    ∧ List.Pairwise (fun p q => ∀ j : Nat, j ∈ p.2 → j ∉ q.2) (kfoldPairs 5 2 0)
    ∧ (∀ j : Nat, j < 5 ↔ ∃ p ∈ kfoldPairs 5 2 0, j ∈ p.2)
    ∧ (∀ p ∈ kfoldPairs 5 2 0, p.2.length = 5 / 2 ∨ p.2.length = (5 + 2 - 1) / 2) :=
  kfold_partition 5 2 0 (by decide) (by decide)

/-- Claim C5: the partition depends only on the seed, the fold count and
the LENGTH of the label list, so two invocations on equally long inputs
with the same seed produce identical (train, test) sequences. -/
theorem kfold_deterministic (labels1 labels2 : List Int) (k seed : Nat)
    (h : labels1.length = labels2.length) :
    cvIndexSet labels1 k seed = cvIndexSet labels2 k seed := by
  unfold cvIndexSet
  rw [h]

/-- Claim C5, witness: two different label lists of length 3 produce the
same 2-fold partition under seed 42. -/
theorem kfold_deterministic_w :
    cvIndexSet [0, 3, 7] 2 42 = cvIndexSet [9, 9, 9] 2 42 :=
  kfold_deterministic [0, 3, 7] [9, 9, 9] 2 42 (by decide)

end CnnBio
